import Mathlib

/-
  Verification of the de Bruijn k-mer assembler (src/Assembler.py).

  The Python module is shallowly embedded as follows:
  * python dicts (insertion-ordered, defaultdict semantics) become
    association lists in key-insertion order;
  * `defaultdict(list)` reads that auto-vivify an empty entry are modelled
    by `dget`, which returns the (possibly extended) dict together with the
    value read;
  * the `while stack:` loop of `reconstruct_dna` becomes the fuel-indexed
    `reconLoop`; sufficient fuel is proved separately, and `reconstruct_dna`
    runs it with fuel `2 * totalEdges g + 2`, which is shown to be enough;
  * `path.popleft()` on an empty deque and `node[-1]` on an empty string
    would raise IndexError in Python; the embedding returns `none` there.
-/

namespace Assembler

/-- A node of the de Bruijn graph: a (k-1)-length string, as a char list. -/
abbrev Node := List Char

/-- The adjacency dict `graph`: insertion-ordered association list from a
node to its ordered list of successors (python `defaultdict(list)`). -/
abbrev Graph := List (Node × List Node)

/-- A degree dict (`in_degree` / `out_degree`): insertion-ordered
association list from a node to a count (python `defaultdict(int)`). -/
abbrev DegMap := List (Node × Nat)

/-- Python `graph[p].append(s)` on a `defaultdict(list)`: append `s` at the end of
the value list of the first entry with key `p`, creating the entry at the
end of the dict if the key is absent. -/
def addEdge : Graph → Node → Node → Graph
  | [], p, s => [(p, [s])]
  | (m, v) :: rest, p, s =>
      if m = p then (m, v ++ [s]) :: rest else (m, v) :: addEdge rest p s

/-- Python `d[n] += 1` on a `defaultdict(int)`: increment the first entry with key
`n`, creating it (as 1) at the end of the dict if absent. -/
def bump : DegMap → Node → DegMap
  | [], n => [(n, 1)]
  | (m, c) :: rest, n =>
      if m = n then (m, c + 1) :: rest else (m, c) :: bump rest n

/-- Reading `d[n]` from a degree dict, default 0.  (The python defaultdict
read also inserts a 0 entry; that mutation is observationally irrelevant to
every value the program computes, so the read is modelled purely.) -/
def degGet : DegMap → Node → Nat
  | [], _ => 0
  | (m, c) :: rest, n => if m = n then c else degGet rest n

/-- One iteration of the `for kmer in kmers` loop of
`build_de_bruijn_graph`: derive the prefix (`kmer[:-1]`) and suffix
(`kmer[1:]`), insert the edge, and bump both degree counters. -/
def buildStep (acc : Graph × DegMap × DegMap) (kmer : List Char) :
    Graph × DegMap × DegMap :=
  (addEdge acc.1 kmer.dropLast (kmer.drop 1),
   bump acc.2.1 (kmer.drop 1),
   bump acc.2.2 kmer.dropLast)

/-- Embeds `build_de_bruijn_graph` (src/Assembler.py lines 22-47): fold the kmers
into the adjacency dict, the in-degree dict and the out-degree dict. -/
def build_de_bruijn_graph (kmers : List (List Char)) :
    Graph × DegMap × DegMap :=
  kmers.foldl buildStep ([], [], [])

/-- The `for node in graph` loop of `find_starting_node`, with the running
value of the `start_node` variable as accumulator: return the first node
with out-degree minus in-degree equal to 1 immediately; otherwise remember
every balanced node, the later ones overwriting the earlier. -/
def findStartGo (in_degree out_degree : DegMap) :
    List Node → Option Node → Option Node
  | [], acc => acc
  | n :: rest, acc =>
      if (degGet out_degree n : Int) - (degGet in_degree n : Int) = 1 then
        some n
      else if degGet in_degree n = degGet out_degree n then
        findStartGo in_degree out_degree rest (some n)
      else
        findStartGo in_degree out_degree rest acc

/-- Embeds `find_starting_node` (src/Assembler.py lines 50-68): scan the keys of
the adjacency dict in insertion order. -/
def find_starting_node (graph : Graph) (in_degree out_degree : DegMap) :
    Option Node :=
  findStartGo in_degree out_degree (graph.map Prod.fst) none

/-- Python `graph[current]` on the `defaultdict(list)`: return the dict (extended
with an empty entry at the end when the key was absent) together with the
value list of the first entry with that key. -/
def dget : Graph → Node → Graph × List Node
  | [], n => ([(n, [])], [])
  | (m, v) :: rest, n =>
      if m = n then ((m, v) :: rest, v)
      else ((m, v) :: (dget rest n).1, (dget rest n).2)

/-- Python `graph[current].pop()`: remove the last element of the value list of
the first entry with key `n` (the key is present at every call site). -/
def dpop : Graph → Node → Graph
  | [], _ => []
  | (m, v) :: rest, n =>
      if m = n then (m, v.dropLast) :: rest else (m, v) :: dpop rest n

/-- Total number of edges still stored in the adjacency dict. -/
def totalEdges (g : Graph) : Nat :=
  (g.map (fun e => e.2.length)).sum

/-- The `while stack:` loop of `reconstruct_dna` (src/Assembler.py lines
81-94), fuel-indexed.  The stack has its top at the head; `path` has the
python deque's left end at the head, and `path.appendleft` is cons.  Each
iteration reads `graph[current]`; if the list is non-empty it pops the last
successor and pushes it, otherwise it finalizes `current` onto the path. -/
def reconLoop : Nat → Graph → List Node → List Node →
    Option (Graph × List Node)
  | 0, _, _, _ => none
  | _ + 1, g, [], path => some (g, path)
  | fuel + 1, g, current :: rest, path =>
      let gv := dget g current
      match gv.2.getLast? with
      | some nxt => reconLoop fuel (dpop gv.1 current) (nxt :: current :: rest) path
      | none => reconLoop fuel gv.1 rest (current :: path)

/-- Python `[node[-1] for node in path]`: the last character of every node.
`none` models the IndexError python raises on an empty node. -/
def lastChars : List Node → Option (List Char)
  | [] => some []
  | n :: rest =>
      match n.getLast?, lastChars rest with
      | some c, some cs => some (c :: cs)
      | _, _ => none

/-- Python `''.join([path.popleft()] + [node[-1] for node in path])`: the first
node in full, then the last character of every later node.  `none` models
the IndexError python raises when the path is empty or a later node is. -/
def joinPath : List Node → Option (List Char)
  | [] => none
  | first :: rest => (lastChars rest).map (fun cs => first ++ cs)

/-- Embeds `reconstruct_dna` (src/Assembler.py lines 71-96).  Returns the final
(mutated-in-place) adjacency dict together with the joined string.  The
fuel `2 * totalEdges g + 2` is proved sufficient below
(`reconLoop_isSome_of_fuel`), so the fuel-out `none` is unreachable. -/
def reconstruct_dna (graph : Graph) (start_node : Node) :
    Option (Graph × List Char) :=
  match reconLoop (2 * totalEdges graph + 2) graph [start_node] [] with
  | none => none
  | some (g, path) => (joinPath path).map (fun str => (g, str))

/-- The algorithmic core of `main` (src/Assembler.py lines 99-116): build
the graph, pick the start node — raising ValueError when there is none —
and reconstruct.  File I/O is out of scope; raised exceptions are errors. -/
def runPipeline (kmers : List (List Char)) : Except String (List Char) :=
  let b := build_de_bruijn_graph kmers
  match find_starting_node b.1 b.2.1 b.2.2 with
  | none =>
      Except.error "Não foi possível determinar um ponto de partida para reconstrução."
  | some start_node =>
      match reconstruct_dna b.1 start_node with
      | some r => Except.ok r.2
      | none => Except.error "IndexError"

/-- Splitting a string into its overlapping length-`k` substrings by a
sliding window of step 1 (the decomposition named by the round-trip
property; it is input construction, not part of the assembler). -/
def kmerize : List Char → Nat → List (List Char)
  | [], _ => []
  | c :: rest, k =>
      if k ≤ (c :: rest).length then (c :: rest).take k :: kmerize rest k
      else []

/-- The single adjacency entry a k-mer contributes when its prefix node is
fresh: the key is the prefix, the value the one-element suffix list. -/
def edgeOf (km : List Char) : Node × List Node :=
  (km.dropLast, [km.drop 1])

/-- Every value list of the adjacency dict is empty. -/
def allEmptyB (g : Graph) : Bool :=
  g.all (fun e => e.2.isEmpty)

/-- Sum of all counters of a degree dict. -/
def degSum (d : DegMap) : Nat :=
  (d.map Prod.snd).sum

/-- Modelled from the spec: the start-selection fallback as the spec words
it — "fall back to the first balanced node encountered
(in-degree == out-degree)" — used to compare against the code's behaviour. -/
def first_balanced (nodes : List Node) (in_degree out_degree : DegMap) :
    Option Node :=
  nodes.find? (fun n => degGet in_degree n = degGet out_degree n)

/-- The fallback the code actually implements: the last balanced node
encountered in the scan, since each balanced node overwrites the saved
`start_node`. -/
def last_balanced (nodes : List Node) (in_degree out_degree : DegMap) :
    Option Node :=
  nodes.foldl
    (fun acc n =>
      if degGet in_degree n = degGet out_degree n then some n else acc)
    none

theorem totalEdges_nil : totalEdges [] = 0 := rfl

theorem totalEdges_cons (m : Node) (v : List Node) (rest : Graph) :
    totalEdges ((m, v) :: rest) = v.length + totalEdges rest := by
  simp [totalEdges]

theorem dget_fst_totalEdges (g : Graph) (n : Node) :
    totalEdges (dget g n).1 = totalEdges g := by
  induction g with
  | nil => simp [dget, totalEdges]
  | cons e rest ih =>
      obtain ⟨m, v⟩ := e
      by_cases h : m = n <;> simp [dget, h, totalEdges_cons, ih]

theorem dpop_totalEdges (g : Graph) (n : Node) (h : (dget g n).2 ≠ []) :
    totalEdges (dpop (dget g n).1 n) + 1 = totalEdges g := by
  induction g with
  | nil => simp [dget] at h
  | cons e rest ih =>
      obtain ⟨m, v⟩ := e
      by_cases hm : m = n
      · simp only [dget, if_pos hm] at h ⊢
        simp only [dpop, if_pos hm, totalEdges_cons, List.length_dropLast]
        have hp : 0 < v.length := List.length_pos.mpr h
        omega
      · simp only [dget, if_neg hm] at h ⊢
        simp only [dpop, if_neg hm, totalEdges_cons]
        have := ih h
        omega

/-- Fuel-sufficiency for the traversal loop: `2 * totalEdges + |stack|`
strictly bounds the number of iterations, because an iteration either
consumes one edge (growing the stack by one) or pops one node. -/
theorem reconLoop_isSome_of_fuel :
    ∀ fuel g stack path, 2 * totalEdges g + stack.length < fuel →
      (reconLoop fuel g stack path).isSome = true := by
  intro fuel
  induction fuel with
  | zero => intro g stack path h; omega
  | succ fuel ih =>
      intro g stack path h
      match stack with
      | [] => simp [reconLoop]
      | current :: rest =>
          simp only [reconLoop]
          cases hv : (dget g current).2.getLast? with
          | some nxt =>
              have hne : (dget g current).2 ≠ [] := by
                intro he; rw [he] at hv; simp at hv
              apply ih
              have h1 := dpop_totalEdges g current hne
              simp only [List.length_cons] at h ⊢
              omega
          | none =>
              apply ih
              rw [dget_fst_totalEdges]
              simp only [List.length_cons] at h
              omega

/-- Claim C9: for every (finite) graph and start node, the traversal loop
of `reconstruct_dna` terminates — with the fuel `reconstruct_dna`
provides, the loop run always completes (each iteration either removes an
edge, growing the stack by one, or pops one node off the stack). -/
theorem claim_C9_loop_terminates (graph : Graph) (start_node : Node) :
    (reconLoop (2 * totalEdges graph + 2) graph [start_node] []).isSome = true :=
  reconLoop_isSome_of_fuel _ _ _ _ (by simp)

/-- Claim C10: when the start node has an empty (or absent) adjacency
list, `reconstruct_dna` finalizes it immediately and returns the start
node itself as the reconstructed string. -/
theorem claim_C10_trivial_walk (graph : Graph) (start_node : Node)
    (h : (dget graph start_node).2 = []) :
    reconstruct_dna graph start_node = some ((dget graph start_node).1, start_node) := by
  unfold reconstruct_dna
  have hrun : reconLoop (2 * totalEdges graph + 2) graph [start_node] [] =
      some ((dget graph start_node).1, [start_node]) := by
    show reconLoop (2 * totalEdges graph + 1 + 1) graph [start_node] [] = _
    simp only [reconLoop, h, List.getLast?_nil]
  rw [hrun]
  simp [joinPath, lastChars]

/-- Witness for claim C10 at a concrete input: the empty dict with start
node "A". -/
theorem claim_C10_witness :
    (dget [] ['A']).2 = [] ∧
      reconstruct_dna [] ['A'] = some ((dget [] ['A']).1, ['A']) :=
  ⟨rfl, claim_C10_trivial_walk [] ['A'] rfl⟩

theorem addEdge_totalEdges (g : Graph) (p s : Node) :
    totalEdges (addEdge g p s) = totalEdges g + 1 := by
  induction g with
  | nil => simp [addEdge, totalEdges]
  | cons e rest ih =>
      obtain ⟨m, v⟩ := e
      by_cases h : m = p <;> simp [addEdge, h, totalEdges_cons, ih] <;> omega

theorem bump_degSum (d : DegMap) (n : Node) :
    degSum (bump d n) = degSum d + 1 := by
  induction d with
  | nil => simp [bump, degSum]
  | cons e rest ih =>
      obtain ⟨m, c⟩ := e
      by_cases h : m = n <;> simp [bump, h, degSum] <;>
        simp [degSum] at ih <;> omega

theorem build_sums (ks : List (List Char)) :
    ∀ g d1 d2,
      totalEdges (ks.foldl buildStep (g, d1, d2)).1 = totalEdges g + ks.length ∧
      degSum (ks.foldl buildStep (g, d1, d2)).2.1 = degSum d1 + ks.length ∧
      degSum (ks.foldl buildStep (g, d1, d2)).2.2 = degSum d2 + ks.length := by
  induction ks with
  | nil => intro g d1 d2; simp
  | cons km rest ih =>
      intro g d1 d2
      simp only [List.foldl_cons, List.length_cons]
      obtain ⟨h1, h2, h3⟩ := ih (buildStep (g, d1, d2) km).1
        (buildStep (g, d1, d2) km).2.1 (buildStep (g, d1, d2) km).2.2
      simp only [buildStep] at h1 h2 h3 ⊢
      rw [h1, h2, h3, addEdge_totalEdges, bump_degSum, bump_degSum]
      omega

/-- Claim C6: immediately after graph construction, the sum of all
out-degrees, the sum of all in-degrees, and the total number of edges in
the adjacency dict all equal the number of input k-mers. -/
theorem claim_C6_degree_sums (kmers : List (List Char)) :
    degSum (build_de_bruijn_graph kmers).2.2 = kmers.length ∧
    degSum (build_de_bruijn_graph kmers).2.1 = kmers.length ∧
    totalEdges (build_de_bruijn_graph kmers).1 = kmers.length := by
  obtain ⟨h1, h2, h3⟩ := build_sums kmers [] [] []
  exact ⟨by simpa [build_de_bruijn_graph, degSum] using h3,
         by simpa [build_de_bruijn_graph, degSum] using h2,
         by simpa [build_de_bruijn_graph, totalEdges] using h1⟩

theorem mem_of_getLast?_some {α : Type} {l : List α} {a : α}
    (h : l.getLast? = some a) : a ∈ l := by
  obtain ⟨hne, he⟩ :=
    List.mem_getLast?_eq_getLast (l := l) (x := a) (by rw [h]; rfl)
  subst he
  exact List.getLast_mem hne

/-- The simultaneous fold of `build_de_bruijn_graph` splits into three
independent folds, one per returned dict. -/
theorem build_proj (ks : List (List Char)) :
    ∀ g d1 d2,
      ks.foldl buildStep (g, d1, d2) =
        (ks.foldl (fun gg km => addEdge gg km.dropLast (km.drop 1)) g,
         ks.foldl (fun dd km => bump dd (km.drop 1)) d1,
         ks.foldl (fun dd km => bump dd km.dropLast) d2) := by
  induction ks with
  | nil => intro g d1 d2; rfl
  | cons km rest ih =>
      intro g d1 d2
      simp only [List.foldl_cons]
      exact ih _ _ _

theorem findStartGo_mem (in_degree out_degree : DegMap) :
    ∀ (nodes : List Node) (acc : Option Node) (st : Node),
      findStartGo in_degree out_degree nodes acc = some st →
      st ∈ nodes ∨ acc = some st := by
  intro nodes
  induction nodes with
  | nil => intro acc st h; exact Or.inr h
  | cons n rest ih =>
      intro acc st h
      simp only [findStartGo] at h
      by_cases h1 : (degGet out_degree n : Int) - (degGet in_degree n : Int) = 1
      · rw [if_pos h1] at h
        exact Or.inl (by simp [Option.some.inj h])
      · rw [if_neg h1] at h
        by_cases h2 : degGet in_degree n = degGet out_degree n
        · rw [if_pos h2] at h
          rcases ih _ _ h with hm | ha
          · exact Or.inl (List.mem_cons_of_mem _ hm)
          · exact Or.inl (by simp [Option.some.inj ha])
        · rw [if_neg h2] at h
          rcases ih _ _ h with hm | ha
          · exact Or.inl (List.mem_cons_of_mem _ hm)
          · exact Or.inr ha

/-- A node returned by `find_starting_node` is one of the adjacency
dict's keys. -/
theorem find_starting_node_mem (graph : Graph) (in_degree out_degree : DegMap)
    (st : Node) (h : find_starting_node graph in_degree out_degree = some st) :
    st ∈ graph.map Prod.fst := by
  rcases findStartGo_mem in_degree out_degree (graph.map Prod.fst) none st h with
    hm | ha
  · exact hm
  · exact absurd ha (by simp)

theorem addEdge_keys (g : Graph) (p s : Node) :
    ∀ n, n ∈ (addEdge g p s).map Prod.fst → n ∈ g.map Prod.fst ∨ n = p := by
  induction g with
  | nil => intro n hn; simp [addEdge] at hn; exact Or.inr hn
  | cons e rest ih =>
      obtain ⟨m, v⟩ := e
      intro n hn
      by_cases hm : m = p
      · simp only [addEdge, if_pos hm, List.map_cons, List.mem_cons] at hn
        rcases hn with he | hn
        · exact Or.inl (by simp [he])
        · exact Or.inl (by simp [hn])
      · simp only [addEdge, if_neg hm, List.map_cons, List.mem_cons] at hn
        rcases hn with he | hn
        · exact Or.inl (by simp [he])
        · rcases ih n hn with h1 | h1
          · exact Or.inl (by simp [h1])
          · exact Or.inr h1

theorem buildG_keys (ks : List (List Char)) :
    ∀ (g : Graph) (n : Node),
      n ∈ (ks.foldl (fun gg km => addEdge gg km.dropLast (km.drop 1)) g).map
        Prod.fst →
      n ∈ g.map Prod.fst ∨ ∃ km ∈ ks, n = km.dropLast := by
  induction ks with
  | nil => intro g n hn; exact Or.inl hn
  | cons km rest ih =>
      intro g n hn
      simp only [List.foldl_cons] at hn
      rcases ih _ _ hn with h1 | h1
      · rcases addEdge_keys g km.dropLast (km.drop 1) n h1 with h2 | h2
        · exact Or.inl h2
        · exact Or.inr ⟨km, by simp, h2⟩
      · obtain ⟨km2, hkm2, he⟩ := h1
        exact Or.inr ⟨km2, by simp [hkm2], he⟩

theorem addEdge_values (g : Graph) (p s : Node) :
    ∀ e ∈ addEdge g p s, ∀ x ∈ e.2, (∃ e' ∈ g, x ∈ e'.2) ∨ x = s := by
  induction g with
  | nil =>
      intro e he x hx
      simp [addEdge] at he
      subst he
      simp at hx
      exact Or.inr hx
  | cons e0 rest ih =>
      obtain ⟨m, v⟩ := e0
      intro e he x hx
      by_cases hm : m = p
      · simp only [addEdge, if_pos hm, List.mem_cons] at he
        rcases he with he | he
        · subst he
          simp only [List.mem_append, List.mem_singleton] at hx
          rcases hx with hx | hx
          · exact Or.inl ⟨(m, v), by simp, hx⟩
          · exact Or.inr hx
        · exact Or.inl ⟨e, by simp [he], hx⟩
      · simp only [addEdge, if_neg hm, List.mem_cons] at he
        rcases he with he | he
        · subst he
          exact Or.inl ⟨(m, v), by simp, hx⟩
        · rcases ih e he x hx with ⟨e', he', hx'⟩ | h1
          · exact Or.inl ⟨e', by simp [he'], hx'⟩
          · exact Or.inr h1

theorem buildG_values (ks : List (List Char)) :
    ∀ (g : Graph) (e : Node × List Node),
      e ∈ ks.foldl (fun gg km => addEdge gg km.dropLast (km.drop 1)) g →
      ∀ x ∈ e.2, (∃ e' ∈ g, x ∈ e'.2) ∨ ∃ km ∈ ks, x = km.drop 1 := by
  induction ks with
  | nil => intro g e he x hx; exact Or.inl ⟨e, he, hx⟩
  | cons km rest ih =>
      intro g e he x hx
      simp only [List.foldl_cons] at he
      rcases ih _ _ he x hx with ⟨e', he', hx'⟩ | h1
      · rcases addEdge_values g km.dropLast (km.drop 1) e' he' x hx' with h2 | h2
        · exact Or.inl h2
        · exact Or.inr ⟨km, by simp, h2⟩
      · obtain ⟨km2, hkm2, he2⟩ := h1
        exact Or.inr ⟨km2, by simp [hkm2], he2⟩

/-- Loop conservation: finalized nodes plus stacked nodes plus remaining
edges is invariant, so the final path length counts the consumed edges. -/
theorem reconLoop_conserve :
    ∀ (fuel : Nat) (g : Graph) (stack path : List Node) (g' : Graph)
      (path' : List Node),
      reconLoop fuel g stack path = some (g', path') →
      path'.length + totalEdges g' =
        path.length + stack.length + totalEdges g := by
  intro fuel
  induction fuel with
  | zero => intro g stack path g' path' h; simp [reconLoop] at h
  | succ fuel ih =>
      intro g stack path g' path' h
      match stack with
      | [] =>
          simp only [reconLoop, Option.some.injEq, Prod.mk.injEq] at h
          obtain ⟨hg, hp⟩ := h
          subst hg; subst hp
          simp
      | current :: rest =>
          simp only [reconLoop] at h
          cases hv : (dget g current).2.getLast? with
          | some nxt =>
              rw [hv] at h
              have hne : (dget g current).2 ≠ [] := by
                intro he; rw [he] at hv; simp at hv
              have h1 := dpop_totalEdges g current hne
              have h2 := ih _ _ _ _ _ h
              simp only [List.length_cons] at h2 ⊢
              omega
          | none =>
              rw [hv] at h
              have h2 := ih _ _ _ _ _ h
              rw [dget_fst_totalEdges] at h2
              simp only [List.length_cons] at h2 ⊢
              omega

theorem dget_fst_values (g : Graph) (n : Node) :
    ∀ e ∈ (dget g n).1, ∀ x ∈ e.2, ∃ e' ∈ g, x ∈ e'.2 := by
  induction g with
  | nil => intro e he x hx; simp [dget] at he; subst he; simp at hx
  | cons e0 rest ih =>
      obtain ⟨m, v⟩ := e0
      intro e he x hx
      by_cases hm : m = n
      · simp only [dget, if_pos hm] at he
        exact ⟨e, he, hx⟩
      · simp only [dget, if_neg hm, List.mem_cons] at he
        rcases he with he | he
        · exact ⟨e, by simp [he], hx⟩
        · obtain ⟨e', he', hx'⟩ := ih e he x hx
          exact ⟨e', by simp [he'], hx'⟩

theorem dget_snd_values (g : Graph) (n : Node) :
    ∀ x ∈ (dget g n).2, ∃ e' ∈ g, x ∈ e'.2 := by
  induction g with
  | nil => intro x hx; simp [dget] at hx
  | cons e0 rest ih =>
      obtain ⟨m, v⟩ := e0
      intro x hx
      by_cases hm : m = n
      · simp only [dget, if_pos hm] at hx
        exact ⟨(m, v), by simp, hx⟩
      · simp only [dget, if_neg hm] at hx
        obtain ⟨e', he', hx'⟩ := ih x hx
        exact ⟨e', by simp [he'], hx'⟩

theorem dpop_values (g : Graph) (n : Node) :
    ∀ e ∈ dpop g n, ∀ x ∈ e.2, ∃ e' ∈ g, x ∈ e'.2 := by
  induction g with
  | nil => intro e he; simp [dpop] at he
  | cons e0 rest ih =>
      obtain ⟨m, v⟩ := e0
      intro e he x hx
      by_cases hm : m = n
      · simp only [dpop, if_pos hm, List.mem_cons] at he
        rcases he with he | he
        · subst he
          exact ⟨(m, v), by simp, (List.dropLast_sublist v).subset hx⟩
        · exact ⟨e, by simp [he], hx⟩
      · simp only [dpop, if_neg hm, List.mem_cons] at he
        rcases he with he | he
        · exact ⟨e, by simp [he], hx⟩
        · obtain ⟨e', he', hx'⟩ := ih e he x hx
          exact ⟨e', by simp [he'], hx'⟩

/-- Loop preservation: any property of nodes that holds on the stack, on
every successor stored in the dict, and on the path, holds on the final
path. -/
theorem reconLoop_preserve (P : Node → Prop) :
    ∀ (fuel : Nat) (g : Graph) (stack path : List Node) (g' : Graph)
      (path' : List Node),
      (∀ n ∈ stack, P n) →
      (∀ e ∈ g, ∀ x ∈ e.2, P x) →
      (∀ n ∈ path, P n) →
      reconLoop fuel g stack path = some (g', path') →
      ∀ n ∈ path', P n := by
  intro fuel
  induction fuel with
  | zero => intro g stack path g' path' _ _ _ h; simp [reconLoop] at h
  | succ fuel ih =>
      intro g stack path g' path' hstack hg hpath h
      match stack with
      | [] =>
          simp only [reconLoop, Option.some.injEq, Prod.mk.injEq] at h
          obtain ⟨hg2, hp⟩ := h
          subst hp
          exact hpath
      | current :: rest =>
          simp only [reconLoop] at h
          cases hv : (dget g current).2.getLast? with
          | some nxt =>
              rw [hv] at h
              refine ih _ _ _ _ _ ?_ ?_ hpath h
              · intro n hn
                rcases List.mem_cons.mp hn with he | hn
                · subst he
                  obtain ⟨e', he', hx'⟩ :=
                    dget_snd_values g current n (mem_of_getLast?_some hv)
                  exact hg e' he' n hx'
                · exact hstack n hn
              · intro e he x hx
                obtain ⟨e', he', hx'⟩ :=
                  dpop_values (dget g current).1 current e he x hx
                obtain ⟨e2, he2, hx2⟩ := dget_fst_values g current e' he' x hx'
                exact hg e2 he2 x hx2
          | none =>
              rw [hv] at h
              refine ih _ _ _ _ _ ?_ ?_ ?_ h
              · intro n hn; exact hstack n (List.mem_cons_of_mem _ hn)
              · intro e he x hx
                obtain ⟨e', he', hx'⟩ := dget_fst_values g current e he x hx
                exact hg e' he' x hx'
              · intro n hn
                rcases List.mem_cons.mp hn with he | hn
                · subst he; exact hstack n (by simp)
                · exact hpath n hn

theorem allEmptyB_totalEdges (g : Graph) (h : allEmptyB g = true) :
    totalEdges g = 0 := by
  induction g with
  | nil => rfl
  | cons e rest ih =>
      obtain ⟨m, v⟩ := e
      simp only [allEmptyB, List.all_cons, Bool.and_eq_true] at h
      obtain ⟨h1, h2⟩ := h
      have hv : v = [] := by simpa [List.isEmpty_iff] using h1
      subst hv
      simp only [totalEdges_cons, List.length_nil, Nat.zero_add]
      exact ih h2

theorem lastChars_spec :
    ∀ (l : List Node) (cs : List Char), lastChars l = some cs →
      cs.length = l.length ∧ ∀ x ∈ l, x ≠ [] := by
  intro l
  induction l with
  | nil =>
      intro cs h
      simp only [lastChars, Option.some.injEq] at h
      subst h
      exact ⟨rfl, by simp⟩
  | cons n rest ih =>
      intro cs h
      simp only [lastChars] at h
      cases h1 : n.getLast? with
      | none => rw [h1] at h; simp at h
      | some c =>
          rw [h1] at h
          cases h2 : lastChars rest with
          | none => rw [h2] at h; simp at h
          | some cs2 =>
              rw [h2] at h
              simp only [Option.some.injEq] at h
              subst h
              obtain ⟨hl, hne⟩ := ih cs2 h2
              refine ⟨by simp [hl], ?_⟩
              intro x hx
              rcases List.mem_cons.mp hx with he | hx
              · subst he
                intro hnil
                rw [hnil] at h1
                simp at h1
              · exact hne x hx

/-- Claim C5: when all N k-mers have length k, a start node is selected,
and the reconstruction succeeds with every edge consumed (every adjacency
list of the final dict empty), the returned string has length N + k - 1. -/
theorem claim_C5_output_length (kmers : List (List Char)) (k : Nat)
    (start_node : Node) (g' : Graph) (str : List Char)
    (hk : ∀ km ∈ kmers, km.length = k)
    (hfind : find_starting_node (build_de_bruijn_graph kmers).1
      (build_de_bruijn_graph kmers).2.1
      (build_de_bruijn_graph kmers).2.2 = some start_node)
    (hrec : reconstruct_dna (build_de_bruijn_graph kmers).1 start_node =
      some (g', str))
    (hall : allEmptyB g' = true) :
    str.length = kmers.length + k - 1 := by
  have hGproj : (build_de_bruijn_graph kmers).1 =
      kmers.foldl (fun gg km => addEdge gg km.dropLast (km.drop 1)) [] := by
    unfold build_de_bruijn_graph
    rw [build_proj]
  have hN : kmers ≠ [] := by
    intro he
    subst he
    simp [build_de_bruijn_graph, find_starting_node, findStartGo] at hfind
  -- unpack the reconstruction run
  unfold reconstruct_dna at hrec
  cases hloop : reconLoop (2 * totalEdges (build_de_bruijn_graph kmers).1 + 2)
      (build_de_bruijn_graph kmers).1 [start_node] [] with
  | none => rw [hloop] at hrec; simp at hrec
  | some pr =>
      obtain ⟨g2, path'⟩ := pr
      rw [hloop] at hrec
      have hrec2 : (joinPath path').map (fun str => (g2, str)) =
          some (g', str) := hrec
      cases hjoin : joinPath path' with
      | none => rw [hjoin] at hrec2; simp at hrec2
      | some str2 =>
          rw [hjoin] at hrec2
          simp only [Option.map_some', Option.some.injEq, Prod.mk.injEq] at hrec2
          obtain ⟨hg2, hstr⟩ := hrec2
          subst hg2
          subst hstr
          -- path' is nonempty and joins to the string
          match path', hjoin with
          | first :: rest, hjoin =>
              simp only [joinPath] at hjoin
              cases hlc : lastChars rest with
              | none => rw [hlc] at hjoin; simp at hjoin
              | some cs =>
                  rw [hlc] at hjoin
                  simp only [Option.map_some', Option.some.injEq] at hjoin
                  obtain ⟨hcs_len, hcs_ne⟩ := lastChars_spec rest cs hlc
                  -- length bookkeeping from the conservation invariant
                  have hcons := reconLoop_conserve _ _ _ _ _ _ hloop
                  have hTE : totalEdges (build_de_bruijn_graph kmers).1 =
                      kmers.length := by
                    have h1 := (build_sums kmers [] [] []).1
                    simpa [build_de_bruijn_graph, totalEdges] using h1
                  have hTE' : totalEdges g2 = 0 := allEmptyB_totalEdges g2 hall
                  rw [hTE, hTE'] at hcons
                  simp only [List.length_nil, List.length_cons] at hcons
                  -- every node on the path has length k - 1
                  have hplen : ∀ n ∈ first :: rest, n.length = k - 1 := by
                    refine reconLoop_preserve (fun n => n.length = k - 1)
                      _ _ _ _ _ _ ?_ ?_ (by simp) hloop
                    · intro n hn
                      have hn2 : n = start_node := by simpa using hn
                      subst hn2
                      have hmem := find_starting_node_mem _ _ _ _ hfind
                      rw [hGproj] at hmem
                      rcases buildG_keys kmers [] n hmem with h1 | h1
                      · simp at h1
                      · obtain ⟨km, hkm, he⟩ := h1
                        subst he
                        rw [List.length_dropLast, hk km hkm]
                    · intro e he x hx
                      rw [hGproj] at he
                      rcases buildG_values kmers [] e he x hx with h1 | h1
                      · obtain ⟨e', he', _⟩ := h1
                        simp at he'
                      · obtain ⟨km, hkm, he2⟩ := h1
                        subst he2
                        rw [List.length_drop, hk km hkm]
                  -- rest is nonempty, so k ≥ 2
                  have hrest_len : rest.length = kmers.length := by omega
                  have hNpos : 0 < kmers.length := List.length_pos.mpr hN
                  have hk2 : 1 ≤ k - 1 := by
                    have hx : ∃ x, x ∈ rest := by
                      rcases rest with _ | ⟨x, xs⟩
                      · simp at hrest_len; omega
                      · exact ⟨x, by simp⟩
                    obtain ⟨x, hx⟩ := hx
                    have h1 := hcs_ne x hx
                    have h2 := hplen x (List.mem_cons_of_mem _ hx)
                    have h3 : 0 < x.length := List.length_pos.mpr h1
                    omega
                  have hfirst : first.length = k - 1 := hplen first (by simp)
                  rw [← hjoin]
                  simp only [List.length_append]
                  omega

/-- Witness for claim C5 at the concrete scenario ["AAB","ABC","BCD","CDA"]
(N = 4, k = 3): the reconstruction consumes all edges and the output
"AABCDA" has length 4 + 3 - 1 = 6. -/
theorem claim_C5_output_length_witness :
    ("AABCDA".toList).length = 4 + 3 - 1 :=
  (by rfl : (["AAB".toList, "ABC".toList, "BCD".toList,
      "CDA".toList] : List (List Char)).length = 4) ▸
    claim_C5_output_length
      ["AAB".toList, "ABC".toList, "BCD".toList, "CDA".toList] 3 ['A','A']
      [(['A','A'], []), (['A','B'], []), (['B','C'], []), (['C','D'], []),
       (['D','A'], [])]
      "AABCDA".toList (by decide) (by decide) (by decide) (by decide)

theorem reconLoop_step_edge (f : Nat) (g : Graph) (current : Node)
    (rest path : List Node) (nxt : Node)
    (h : (dget g current).2.getLast? = some nxt) :
    reconLoop (f + 1) g (current :: rest) path =
      reconLoop f (dpop (dget g current).1 current) (nxt :: current :: rest)
        path := by
  simp only [reconLoop, h]

theorem reconLoop_step_final (f : Nat) (g : Graph) (current : Node)
    (rest path : List Node)
    (h : (dget g current).2.getLast? = none) :
    reconLoop (f + 1) g (current :: rest) path =
      reconLoop f (dget g current).1 rest (current :: path) := by
  simp only [reconLoop, h]

theorem dget_fst_mem (g : Graph) (n : Node) :
    ∀ e ∈ (dget g n).1, e ∈ g ∨ e = (n, []) := by
  induction g with
  | nil => intro e he; simp [dget] at he; simp [he]
  | cons e0 rest ih =>
      obtain ⟨m, v⟩ := e0
      intro e he
      by_cases hm : m = n
      · simp only [dget, if_pos hm] at he
        exact Or.inl he
      · simp only [dget, if_neg hm, List.mem_cons] at he
        rcases he with he | he
        · exact Or.inl (by simp [he])
        · rcases ih e he with h1 | h1
          · exact Or.inl (by simp [h1])
          · exact Or.inr h1

theorem dget_snd_allEmpty (g : Graph) (n : Node) (h : ∀ e ∈ g, e.2 = []) :
    (dget g n).2 = [] := by
  rcases hx : (dget g n).2 with _ | ⟨x, xs⟩
  · rfl
  · exfalso
    have hm : x ∈ (dget g n).2 := by rw [hx]; simp
    obtain ⟨e', he', hx'⟩ := dget_snd_values g n x hm
    rw [h e' he'] at hx'
    simp at hx'

/-- Once every adjacency list is empty, the loop just unwinds the stack
onto the path. -/
theorem reconLoop_unwind :
    ∀ (stack : List Node) (fuel : Nat) (g : Graph) (path : List Node),
      (∀ e ∈ g, e.2 = []) → stack.length < fuel →
      ∃ g', reconLoop fuel g stack path = some (g', stack.reverse ++ path) ∧
        ∀ e ∈ g', e.2 = [] := by
  intro stack
  induction stack with
  | nil =>
      intro fuel g path hg hf
      cases fuel with
      | zero => omega
      | succ f => exact ⟨g, by simp [reconLoop], hg⟩
  | cons current rest ih =>
      intro fuel g path hg hf
      cases fuel with
      | zero => simp at hf
      | succ f =>
          have hv : (dget g current).2 = [] := dget_snd_allEmpty g current hg
          have hg1 : ∀ e ∈ (dget g current).1, e.2 = [] := by
            intro e he
            rcases dget_fst_mem g current e he with h1 | h1
            · exact hg e h1
            · simp [h1]
          have hf2 : rest.length < f := by simp at hf; omega
          obtain ⟨g', hrun, hg'⟩ := ih f (dget g current).1 (current :: path) hg1 hf2
          refine ⟨g', ?_, hg'⟩
          rw [reconLoop_step_final f g current rest path (by rw [hv]; rfl)]
          rw [hrun]
          simp

theorem dget_append_head (g : Graph) (n : Node) (v : List Node) (tail : Graph)
    (h : n ∉ g.map Prod.fst) :
    dget (g ++ (n, v) :: tail) n = (g ++ (n, v) :: tail, v) := by
  induction g with
  | nil => simp [dget]
  | cons e0 rest ih =>
      obtain ⟨m, w⟩ := e0
      simp only [List.map_cons, List.mem_cons] at h
      push_neg at h
      have hmn : ¬ m = n := fun he => h.1 he.symm
      simp only [List.cons_append, dget, if_neg hmn]
      show ((m, w) :: (dget (rest ++ (n, v) :: tail) n).1,
          (dget (rest ++ (n, v) :: tail) n).2) =
        ((m, w) :: (rest ++ (n, v) :: tail), v)
      rw [ih h.2]

theorem dpop_append_head (g : Graph) (n : Node) (v : List Node) (tail : Graph)
    (h : n ∉ g.map Prod.fst) :
    dpop (g ++ (n, v) :: tail) n = g ++ (n, v.dropLast) :: tail := by
  induction g with
  | nil => simp [dpop]
  | cons e0 rest ih =>
      obtain ⟨m, w⟩ := e0
      simp only [List.map_cons, List.mem_cons] at h
      push_neg at h
      have hmn : ¬ m = n := fun he => h.1 he.symm
      simp only [List.cons_append, dpop, if_neg hmn]
      show (m, w) :: dpop (rest ++ (n, v) :: tail) n =
        (m, w) :: (rest ++ (n, v.dropLast) :: tail)
      rw [ih h.2]

/-- The traversal of a chain graph: starting at the first prefix of a
chained k-mer list whose prefixes are fresh keys, the loop walks the whole
chain, empties it, and finalizes the node sequence prefix-of-first then
every suffix in order. -/
theorem reconLoop_chain_run :
    ∀ (ks : List (List Char)) (km : List Char) (fuel : Nat) (emp : Graph)
      (st path : List Node),
      (∀ e ∈ emp, e.2 = []) →
      List.Chain' (fun a b => b.dropLast = a.drop 1) (km :: ks) →
      ((emp.map Prod.fst) ++ (km :: ks).map List.dropLast).Nodup →
      2 * (km :: ks).length + st.length + 1 < fuel →
      ∃ g', reconLoop fuel (emp ++ (km :: ks).map edgeOf)
          (km.dropLast :: st) path =
        some (g', st.reverse ++
          (km.dropLast :: (km :: ks).map (fun t => t.drop 1)) ++ path) ∧
        ∀ e ∈ g', e.2 = [] := by
  intro ks
  induction ks with
  | nil =>
      intro km fuel emp st path hemp hchain hnodup hfuel
      cases fuel with
      | zero => simp at hfuel
      | succ f =>
          have hkd : km.dropLast ∉ emp.map Prod.fst := by
            intro hmem
            exact (List.nodup_append.mp hnodup).2.2 hmem (by simp)
          have hmap : ([km] : List (List Char)).map edgeOf =
              [(km.dropLast, [km.drop 1])] := by simp [edgeOf]
          have hdg := dget_append_head emp km.dropLast [km.drop 1] [] hkd
          have hstep := reconLoop_step_edge f
            (emp ++ [(km.dropLast, [km.drop 1])]) km.dropLast st path
            (km.drop 1) (by rw [hdg]; simp)
          rw [hdg] at hstep
          rw [dpop_append_head emp km.dropLast [km.drop 1] [] hkd] at hstep
          simp only [List.dropLast_single] at hstep
          have hempty2 : ∀ e ∈ emp ++ [(km.dropLast, ([] : List Node))],
              e.2 = [] := by
            intro e he
            rcases List.mem_append.mp he with h1 | h1
            · exact hemp e h1
            · simp at h1; simp [h1]
          have hflen : (km.drop 1 :: km.dropLast :: st).length < f := by
            simp at hfuel ⊢; omega
          obtain ⟨g', hrun, hg'⟩ := reconLoop_unwind
            (km.drop 1 :: km.dropLast :: st) f
            (emp ++ [(km.dropLast, ([] : List Node))]) path hempty2 hflen
          refine ⟨g', ?_, hg'⟩
          rw [hmap, hstep, hrun]
          simp
  | cons km2 rest ih =>
      intro km fuel emp st path hemp hchain hnodup hfuel
      cases fuel with
      | zero => simp at hfuel
      | succ f =>
          have hkd : km.dropLast ∉ emp.map Prod.fst := by
            intro hmem
            exact (List.nodup_append.mp hnodup).2.2 hmem (by simp)
          obtain ⟨hlink, hchain2⟩ := List.chain'_cons.mp hchain
          have hmap : ((km :: km2 :: rest) : List (List Char)).map edgeOf =
              (km.dropLast, [km.drop 1]) :: (km2 :: rest).map edgeOf := by
            simp [edgeOf]
          have hdg := dget_append_head emp km.dropLast [km.drop 1]
            ((km2 :: rest).map edgeOf) hkd
          have hstep := reconLoop_step_edge f
            (emp ++ (km.dropLast, [km.drop 1]) :: (km2 :: rest).map edgeOf)
            km.dropLast st path (km.drop 1) (by rw [hdg]; simp)
          rw [hdg] at hstep
          rw [dpop_append_head emp km.dropLast [km.drop 1]
            ((km2 :: rest).map edgeOf) hkd] at hstep
          simp only [List.dropLast_single] at hstep
          have hempty2 : ∀ e ∈ emp ++ [(km.dropLast, ([] : List Node))],
              e.2 = [] := by
            intro e he
            rcases List.mem_append.mp he with h1 | h1
            · exact hemp e h1
            · simp at h1; simp [h1]
          have hnodup2 : (((emp ++ [(km.dropLast, ([] : List Node))]).map
              Prod.fst) ++ (km2 :: rest).map List.dropLast).Nodup := by
            simpa using hnodup
          have hfuel2 : 2 * (km2 :: rest).length +
              (km.dropLast :: st).length + 1 < f := by
            simp at hfuel ⊢; omega
          obtain ⟨g', hrun, hg'⟩ := ih km2 f
            (emp ++ [(km.dropLast, ([] : List Node))])
            (km.dropLast :: st) path hempty2 hchain2 hnodup2 hfuel2
          refine ⟨g', ?_, hg'⟩
          rw [hmap, hstep]
          have hshape : emp ++ (km.dropLast, ([] : List Node)) ::
              (km2 :: rest).map edgeOf =
              (emp ++ [(km.dropLast, ([] : List Node))]) ++
                (km2 :: rest).map edgeOf := by
            simp
          rw [hshape, show km.drop 1 = km2.dropLast from hlink.symm, hrun]
          simp [hlink]

theorem addEdge_notmem (g : Graph) (p s : Node)
    (h : p ∉ g.map Prod.fst) :
    addEdge g p s = g ++ [(p, [s])] := by
  induction g with
  | nil => rfl
  | cons e0 rest ih =>
      obtain ⟨m, v⟩ := e0
      simp only [List.map_cons, List.mem_cons] at h
      push_neg at h
      have hmp : ¬ m = p := fun he => h.1 he.symm
      simp only [addEdge, if_neg hmp, List.cons_append]
      rw [ih h.2]

/-- With pairwise-distinct prefixes, the built adjacency dict is exactly
one singleton entry per k-mer, in input order. -/
theorem buildG_eq (ks : List (List Char)) :
    ∀ g : Graph, (∀ km ∈ ks, km.dropLast ∉ g.map Prod.fst) →
      (ks.map List.dropLast).Nodup →
      ks.foldl (fun gg km => addEdge gg km.dropLast (km.drop 1)) g =
        g ++ ks.map edgeOf := by
  induction ks with
  | nil => intro g _ _; simp
  | cons km rest ih =>
      intro g hnot hnodup
      have hnodup' : (km.dropLast :: rest.map List.dropLast).Nodup := by
        simpa using hnodup
      have hnd := List.nodup_cons.mp hnodup'
      simp only [List.foldl_cons]
      rw [addEdge_notmem g km.dropLast (km.drop 1) (hnot km (by simp))]
      rw [ih (g ++ [(km.dropLast, [km.drop 1])]) ?_ hnd.2]
      · simp [edgeOf]
      · intro km2 hkm2 hmem
        simp only [List.map_append, List.mem_append] at hmem
        rcases hmem with h1 | h1
        · exact hnot km2 (List.mem_cons_of_mem _ hkm2) h1
        · simp only [List.map_cons, List.map_nil, List.mem_singleton] at h1
          have h2 : km.dropLast ∈ rest.map List.dropLast :=
            h1 ▸ List.mem_map_of_mem List.dropLast hkm2
          exact hnd.1 h2

theorem degGet_bump (d : DegMap) (m n : Node) :
    degGet (bump d m) n = degGet d n + if n = m then 1 else 0 := by
  induction d with
  | nil =>
      by_cases h : n = m
      · subst h; simp [bump, degGet]
      · have hmn : ¬ m = n := fun he => h he.symm
        simp [bump, degGet, h, hmn]
  | cons e0 rest ih =>
      obtain ⟨a, c⟩ := e0
      by_cases ha : a = m
      · subst ha
        by_cases hn : a = n
        · subst hn; simp [bump, degGet]
        · have h2 : ¬ n = a := fun he => hn he.symm
          simp [bump, degGet, hn, h2]
      · by_cases hn : a = n
        · have hnm : ¬ n = m := fun he => ha (hn.trans he)
          simp [bump, degGet, ha, hn, hnm]
        · simp [bump, degGet, ha, hn, ih]

theorem degGet_foldl_bump_map (ks : List (List Char)) (f : List Char → Node) :
    ∀ (d : DegMap) (n : Node),
      degGet (ks.foldl (fun dd km => bump dd (f km)) d) n =
        degGet d n + (ks.map f).count n := by
  induction ks with
  | nil => intro d n; simp
  | cons a rest ih =>
      intro d n
      simp only [List.foldl_cons, List.map_cons, List.count_cons]
      rw [ih, degGet_bump]
      by_cases h : n = f a
      · simp [h]; omega
      · have h2 : ¬ f a = n := fun he => h he.symm
        simp [h, h2]

theorem totalEdges_map_edgeOf (ks : List (List Char)) :
    totalEdges (ks.map edgeOf) = ks.length := by
  induction ks with
  | nil => rfl
  | cons km rest ih =>
      simp only [List.map_cons, edgeOf, totalEdges_cons, ih,
        List.length_singleton, List.length_cons, List.length_nil]
      omega

theorem count_eq_zero_of_not_mem_node (l : List Node) (a : Node)
    (h : a ∉ l) : l.count a = 0 := by
  induction l with
  | nil => rfl
  | cons x xs ih =>
      simp only [List.count_cons]
      have hne : ¬ x = a := fun he => h (by simp [he])
      have hm : a ∉ xs := fun hm => h (by simp [hm])
      simp [hne, ih hm]

theorem count_eq_one_of_nodup_mem_node (l : List Node) (a : Node)
    (h1 : l.Nodup) (h2 : a ∈ l) : l.count a = 1 := by
  induction l with
  | nil => simp at h2
  | cons x xs ih =>
      have hnd := List.nodup_cons.mp h1
      rcases List.mem_cons.mp h2 with he | hm
      · subst he
        simp [List.count_cons, count_eq_zero_of_not_mem_node xs a hnd.1]
      · have hne : ¬ x = a := fun he => hnd.1 (he ▸ hm)
        simp [List.count_cons, hne, ih hnd.2 hm]

theorem dropLast_take {α : Type} (k : Nat) (l : List α) (h : k ≤ l.length) :
    (l.take k).dropLast = l.take (k - 1) := by
  rw [List.dropLast_eq_take, List.take_take, List.length_take]
  congr 1
  omega

theorem kmerize_cons (c : Char) (rest : List Char) (k : Nat)
    (h : k ≤ (c :: rest).length) :
    kmerize (c :: rest) k = (c :: rest).take k :: kmerize rest k := by
  have h' : k ≤ rest.length + 1 := by simpa using h
  simp [kmerize, h']

theorem kmerize_nil_of_lt (c : Char) (rest : List Char) (k : Nat)
    (h : ¬ k ≤ (c :: rest).length) :
    kmerize (c :: rest) k = [] := by
  have h' : ¬ k ≤ rest.length + 1 := by simpa using h
  simp [kmerize, h']

/-- Consecutive sliding windows overlap: the prefix of each k-mer equals
the suffix of the one before it. -/
theorem kmerize_chain' (k : Nat) (hk : 1 ≤ k) :
    ∀ l : List Char,
      List.Chain' (fun a b => b.dropLast = a.drop 1) (kmerize l k) := by
  intro l
  induction l with
  | nil => simp [kmerize]
  | cons c rest ih =>
      by_cases h : k ≤ (c :: rest).length
      · rw [kmerize_cons c rest k h]
        refine List.chain'_cons'.mpr ⟨?_, ih⟩
        intro b hb
        cases rest with
        | nil => simp [kmerize] at hb
        | cons c2 rest2 =>
            by_cases h2 : k ≤ (c2 :: rest2).length
            · rw [kmerize_cons c2 rest2 k h2] at hb
              simp only [List.head?_cons, Option.mem_def, Option.some.injEq] at hb
              subst hb
              rw [dropLast_take k (c2 :: rest2) h2]
              obtain ⟨j, rfl⟩ : ∃ j, k = j + 1 := ⟨k - 1, by omega⟩
              rw [List.take_succ_cons]
              simp
            · rw [kmerize_nil_of_lt c2 rest2 k h2] at hb
              simp at hb
      · rw [kmerize_nil_of_lt c rest k h]
        simp

theorem lastChars_cons_some (n : Node) (rest : List Node) (c : Char)
    (cs : List Char) (h1 : n.getLast? = some c)
    (h2 : lastChars rest = some cs) :
    lastChars (n :: rest) = some (c :: cs) := by
  simp [lastChars, h1, h2]

/-- The last characters of the suffixes of the k-mers of `l` are exactly
the characters of `l` from position k-1 on. -/
theorem lastChars_kmerize (k : Nat) (hk : 2 ≤ k) :
    ∀ l : List Char,
      lastChars ((kmerize l k).map (fun t => t.drop 1)) =
        some (l.drop (k - 1)) := by
  obtain ⟨j, rfl⟩ : ∃ j, k = j + 2 := ⟨k - 2, by omega⟩
  intro l
  induction l with
  | nil => simp [kmerize, lastChars]
  | cons c rest ih =>
      by_cases h : j + 2 ≤ (c :: rest).length
      · rw [kmerize_cons c rest (j + 2) h]
        simp only [List.map_cons]
        have hhead : ((c :: rest).take (j + 2)).drop 1 = rest.take (j + 1) := by
          rw [List.take_succ_cons]
          simp
        rw [hhead]
        have hj : j < rest.length := by simp at h; omega
        have hg : (rest.take (j + 1)).getLast? = some rest[j] := by
          rw [List.getLast?_eq_getElem?, List.length_take]
          have hmin : min (j + 1) rest.length - 1 = j := by omega
          rw [hmin, List.getElem?_take]
          simp [hj, List.getElem?_eq_getElem hj]
        rw [lastChars_cons_some _ _ _ _ hg ih]
        show some (rest[j] :: rest.drop (j + 1)) = some ((c :: rest).drop (j + 1))
        rw [List.drop_succ_cons, List.drop_eq_getElem_cons hj]
      · rw [kmerize_nil_of_lt c rest (j + 2) h]
        simp only [List.map_nil, lastChars]
        have hle : (c :: rest).length ≤ j + 1 := by simp at h ⊢; omega
        rw [List.drop_eq_nil_of_le (by simpa using hle)]

/-- Claim C1, amended: the round trip holds for every string S of length
at least k (k ≥ 2) whose (k-1)-length prefix windows are pairwise distinct
(no k-mer prefix repeats) and whose first (k-1)-mer does not occur as any
k-mer suffix (in particular the string is not a circuit): splitting S into
its overlapping k-mers and running the pipeline returns exactly S.
Without those two conditions the LIFO edge order or the fallback start can
produce a different string with the same k-mer multiset. -/
theorem claim_C1_amended (S : List Char) (k : Nat) (hk : 2 ≤ k)
    (hlen : k ≤ S.length)
    (hnodup : ((kmerize S k).map List.dropLast).Nodup)
    (hstart : S.take (k - 1) ∉ (kmerize S k).map (fun t => t.drop 1)) :
    runPipeline (kmerize S k) = Except.ok S := by
  obtain ⟨c, S2, rfl⟩ : ∃ c S2, S = c :: S2 := by
    cases S with
    | nil => simp at hlen; omega
    | cons c S2 => exact ⟨c, S2, rfl⟩
  have hkcons : kmerize (c :: S2) k = (c :: S2).take k :: kmerize S2 k :=
    kmerize_cons c S2 k hlen
  have hw0 : ((c :: S2).take k).dropLast = (c :: S2).take (k - 1) :=
    dropLast_take k (c :: S2) hlen
  have hbuild := build_proj (kmerize (c :: S2) k) [] [] []
  have hG : (build_de_bruijn_graph (kmerize (c :: S2) k)).1 =
      (kmerize (c :: S2) k).map edgeOf := by
    show ((kmerize (c :: S2) k).foldl buildStep ([], [], [])).1 = _
    rw [hbuild]
    exact buildG_eq (kmerize (c :: S2) k) [] (by simp) hnodup
  have hIND : (build_de_bruijn_graph (kmerize (c :: S2) k)).2.1 =
      (kmerize (c :: S2) k).foldl (fun dd km => bump dd (km.drop 1)) [] := by
    show ((kmerize (c :: S2) k).foldl buildStep ([], [], [])).2.1 = _
    rw [hbuild]
  have hOUTD : (build_de_bruijn_graph (kmerize (c :: S2) k)).2.2 =
      (kmerize (c :: S2) k).foldl (fun dd km => bump dd km.dropLast) [] := by
    show ((kmerize (c :: S2) k).foldl buildStep ([], [], [])).2.2 = _
    rw [hbuild]
  -- the out-degree of the first window is 1, its in-degree 0
  have hmem0 : (c :: S2).take (k - 1) ∈
      (kmerize (c :: S2) k).map List.dropLast := by
    rw [hkcons]
    simp only [List.map_cons]
    rw [hw0]
    simp
  have hout : degGet
      ((kmerize (c :: S2) k).foldl (fun dd km => bump dd km.dropLast) [])
      ((c :: S2).take (k - 1)) = 1 := by
    rw [degGet_foldl_bump_map]
    have hcnt := count_eq_one_of_nodup_mem_node
      ((kmerize (c :: S2) k).map List.dropLast) ((c :: S2).take (k - 1))
      hnodup hmem0
    rw [show degGet [] ((c :: S2).take (k - 1)) = 0 from rfl, Nat.zero_add]
    exact hcnt
  have hin : degGet
      ((kmerize (c :: S2) k).foldl (fun dd km => bump dd (km.drop 1)) [])
      ((c :: S2).take (k - 1)) = 0 := by
    rw [degGet_foldl_bump_map]
    have hcnt := count_eq_zero_of_not_mem_node
      ((kmerize (c :: S2) k).map (fun t => t.drop 1)) ((c :: S2).take (k - 1))
      hstart
    rw [show degGet [] ((c :: S2).take (k - 1)) = 0 from rfl, Nat.zero_add]
    exact hcnt
  -- the start selector picks the first window immediately
  have hfind : find_starting_node
      (build_de_bruijn_graph (kmerize (c :: S2) k)).1
      (build_de_bruijn_graph (kmerize (c :: S2) k)).2.1
      (build_de_bruijn_graph (kmerize (c :: S2) k)).2.2 =
      some ((c :: S2).take (k - 1)) := by
    rw [find_starting_node, hG, hIND, hOUTD]
    have hkeys : ((kmerize (c :: S2) k).map edgeOf).map Prod.fst =
        (kmerize (c :: S2) k).map List.dropLast := by
      simp [edgeOf]
    rw [hkeys, hkcons]
    rw [hkcons] at hout hin
    simp only [List.map_cons]
    rw [hw0]
    rw [findStartGo]
    rw [hout, hin]
    norm_num
  -- the walk reconstructs the full string
  have hchain : List.Chain' (fun a b => b.dropLast = a.drop 1)
      ((c :: S2).take k :: kmerize S2 k) := by
    rw [← hkcons]
    exact kmerize_chain' k (by omega) (c :: S2)
  have hnodup2 : ((([] : Graph).map Prod.fst) ++
      ((c :: S2).take k :: kmerize S2 k).map List.dropLast).Nodup := by
    rw [← hkcons]
    simpa using hnodup
  obtain ⟨g', hrun, _⟩ := reconLoop_chain_run (kmerize S2 k) ((c :: S2).take k)
    (2 * totalEdges ((kmerize (c :: S2) k).map edgeOf) + 2) [] [] []
    (by simp) hchain hnodup2
    (by
      rw [totalEdges_map_edgeOf, hkcons]
      simp)
  rw [← hkcons] at hrun
  have hrecon : reconstruct_dna ((kmerize (c :: S2) k).map edgeOf)
      ((c :: S2).take (k - 1)) = some (g', c :: S2) := by
    rw [reconstruct_dna]
    have hrun2 : reconLoop
        (2 * totalEdges ((kmerize (c :: S2) k).map edgeOf) + 2)
        ((kmerize (c :: S2) k).map edgeOf) [(c :: S2).take (k - 1)] [] =
        some (g', ((c :: S2).take (k - 1)) ::
          (kmerize (c :: S2) k).map (fun t => t.drop 1)) := by
      rw [← hw0]
      simpa using hrun
    rw [hrun2]
    have hlast : lastChars ((kmerize (c :: S2) k).map (fun t => t.drop 1)) =
        some ((c :: S2).drop (k - 1)) := lastChars_kmerize k hk (c :: S2)
    simp only [joinPath, hlast, Option.map_some']
    rw [List.take_append_drop]
  rw [runPipeline]
  simp only [hfind]
  rw [hG, hrecon]

/-- Witness for the amended claim C1: S = "AABC", k = 3 satisfies both
side conditions and the pipeline returns "AABC" exactly. -/
theorem claim_C1_amended_witness :
    runPipeline (kmerize "AABC".toList 3) = Except.ok "AABC".toList :=
  claim_C1_amended "AABC".toList 3 (by decide) (by decide) (by decide)
    (by decide)

/-- Claim C2: on the input k-mers ["AAB","ABC","BCD","CDA"], the builder
produces exactly the edges AA→AB, AB→BC, BC→CD, CD→DA, with out-degree 1
and in-degree 0 for AA and in-degree 1 and out-degree 0 for DA;
`find_starting_node` returns "AA", and `reconstruct_dna` from that start
returns "AABCDA". -/
theorem claim_C2_concrete_scenario :
    build_de_bruijn_graph ["AAB".toList, "ABC".toList, "BCD".toList, "CDA".toList] =
      ([(['A','A'], [['A','B']]), (['A','B'], [['B','C']]),
        (['B','C'], [['C','D']]), (['C','D'], [['D','A']])],
       [(['A','B'], 1), (['B','C'], 1), (['C','D'], 1), (['D','A'], 1)],
       [(['A','A'], 1), (['A','B'], 1), (['B','C'], 1), (['C','D'], 1)]) ∧
    degGet [(['A','A'], 1), (['A','B'], 1), (['B','C'], 1), (['C','D'], 1)] ['A','A'] = 1 ∧
    degGet [(['A','B'], 1), (['B','C'], 1), (['C','D'], 1), (['D','A'], 1)] ['A','A'] = 0 ∧
    degGet [(['A','B'], 1), (['B','C'], 1), (['C','D'], 1), (['D','A'], 1)] ['D','A'] = 1 ∧
    degGet [(['A','A'], 1), (['A','B'], 1), (['B','C'], 1), (['C','D'], 1)] ['D','A'] = 0 ∧
    find_starting_node
      [(['A','A'], [['A','B']]), (['A','B'], [['B','C']]),
       (['B','C'], [['C','D']]), (['C','D'], [['D','A']])]
      [(['A','B'], 1), (['B','C'], 1), (['C','D'], 1), (['D','A'], 1)]
      [(['A','A'], 1), (['A','B'], 1), (['B','C'], 1), (['C','D'], 1)] = some ['A','A'] ∧
    (reconstruct_dna
      [(['A','A'], [['A','B']]), (['A','B'], [['B','C']]),
       (['B','C'], [['C','D']]), (['C','D'], [['D','A']])]
      ['A','A']).map Prod.snd = some "AABCDA".toList := by
  decide

/-- Claim C4: on the empty k-mer list the start selector yields no node
and the pipeline raises the no-valid-start ValueError — it neither fails
some other way nor silently returns an empty string. -/
theorem claim_C4_empty_input :
    find_starting_node (build_de_bruijn_graph []).1
        (build_de_bruijn_graph []).2.1 (build_de_bruijn_graph []).2.2 = none ∧
    runPipeline [] =
      Except.error "Não foi possível determinar um ponto de partida para reconstrução." :=
  ⟨rfl, rfl⟩

/-- Claim C8: on ["ABA","BAB"] the start selector returns a balanced node
(it does not fail), and reconstruction from it yields a length-4 string
whose sliding-window 3-mers are exactly the multiset of the two inputs. -/
theorem claim_C8_cyclic_scenario :
    find_starting_node
        (build_de_bruijn_graph ["ABA".toList, "BAB".toList]).1
        (build_de_bruijn_graph ["ABA".toList, "BAB".toList]).2.1
        (build_de_bruijn_graph ["ABA".toList, "BAB".toList]).2.2 = some ['B','A'] ∧
    degGet (build_de_bruijn_graph ["ABA".toList, "BAB".toList]).2.1 ['B','A'] =
      degGet (build_de_bruijn_graph ["ABA".toList, "BAB".toList]).2.2 ['B','A'] ∧
    (reconstruct_dna (build_de_bruijn_graph ["ABA".toList, "BAB".toList]).1
        ['B','A']).map Prod.snd = some "BABA".toList ∧
    ("BABA".toList).length = 4 ∧
    (kmerize "BABA".toList 3).Perm ["ABA".toList, "BAB".toList] := by
  decide

/-- Claim C1 is false as stated: for S = "AABAB" and k = 2 (so |S| ≥ k ≥ 2)
the pipeline returns "ABAAB", a different string with the same 2-mer
multiset, because the LIFO edge choice at the repeated node 'A' reorders
the walk. -/
theorem claim_C1_counterexample :
    2 ≤ ("AABAB".toList).length ∧
    runPipeline (kmerize "AABAB".toList 2) = Except.ok "ABAAB".toList ∧
    runPipeline (kmerize "AABAB".toList 2) ≠ Except.ok "AABAB".toList := by
  refine ⟨by decide, rfl, ?_⟩
  intro h
  rw [show runPipeline (kmerize "AABAB".toList 2) = Except.ok "ABAAB".toList from rfl] at h
  injection h with h2
  exact absurd h2 (by decide)

/-- Claim C3 is false as stated: the graph built from ["ABA","BAB"] has no
node with out-degree minus in-degree 1, and its scan order is AB, BA, both
balanced; the first balanced node is AB, but `find_starting_node` returns
BA, the last balanced node, because each balanced node overwrites the
saved candidate. -/
theorem claim_C3_counterexample :
    build_de_bruijn_graph ["ABA".toList, "BAB".toList] =
      ([(['A','B'], [['B','A']]), (['B','A'], [['A','B']])],
       [(['B','A'], 1), (['A','B'], 1)],
       [(['A','B'], 1), (['B','A'], 1)]) ∧
    (∀ n ∈ ([(['A','B'], [['B','A']]), (['B','A'], [['A','B']])] : Graph).map Prod.fst,
      (degGet [(['A','B'], 1), (['B','A'], 1)] n : Int) -
        (degGet [(['B','A'], 1), (['A','B'], 1)] n : Int) ≠ 1) ∧
    first_balanced
      (([(['A','B'], [['B','A']]), (['B','A'], [['A','B']])] : Graph).map Prod.fst)
      [(['B','A'], 1), (['A','B'], 1)] [(['A','B'], 1), (['B','A'], 1)] =
        some ['A','B'] ∧
    find_starting_node
      [(['A','B'], [['B','A']]), (['B','A'], [['A','B']])]
      [(['B','A'], 1), (['A','B'], 1)] [(['A','B'], 1), (['B','A'], 1)] =
        some ['B','A'] ∧
    find_starting_node
        [(['A','B'], [['B','A']]), (['B','A'], [['A','B']])]
        [(['B','A'], 1), (['A','B'], 1)] [(['A','B'], 1), (['B','A'], 1)] ≠
      first_balanced
        (([(['A','B'], [['B','A']]), (['B','A'], [['A','B']])] : Graph).map Prod.fst)
        [(['B','A'], 1), (['A','B'], 1)] [(['A','B'], 1), (['B','A'], 1)] := by
  decide

theorem findStartGo_eq_foldl (in_degree out_degree : DegMap) :
    ∀ (nodes : List Node) (acc : Option Node),
      (∀ n ∈ nodes, (degGet out_degree n : Int) - (degGet in_degree n : Int) ≠ 1) →
      findStartGo in_degree out_degree nodes acc =
        nodes.foldl
          (fun a n =>
            if degGet in_degree n = degGet out_degree n then some n else a)
          acc := by
  intro nodes
  induction nodes with
  | nil => intro acc _; rfl
  | cons n rest ih =>
      intro acc h
      have hn := h n (by simp)
      simp only [findStartGo, if_neg hn, List.foldl_cons]
      by_cases hb : degGet in_degree n = degGet out_degree n
      · rw [if_pos hb, if_pos hb, ih _ (fun m hm => h m (by simp [hm]))]
      · rw [if_neg hb, if_neg hb, ih _ (fun m hm => h m (by simp [hm]))]

/-- Claim C3, amended: when no scanned node has out-degree minus in-degree
equal to 1, `find_starting_node` returns the LAST balanced node
encountered in the scan over the adjacency dict's keys (each balanced node
overwrites the saved candidate), not the first. -/
theorem claim_C3_amended (graph : Graph) (in_degree out_degree : DegMap)
    (h : ∀ n ∈ graph.map Prod.fst,
      (degGet out_degree n : Int) - (degGet in_degree n : Int) ≠ 1) :
    find_starting_node graph in_degree out_degree =
      last_balanced (graph.map Prod.fst) in_degree out_degree :=
  findStartGo_eq_foldl in_degree out_degree (graph.map Prod.fst) none h

/-- Witness for the amended claim C3 at the graph built from
["ABA","BAB"]: both scanned nodes are balanced and the selector returns
the last one, BA. -/
theorem claim_C3_amended_witness :
    (∀ n ∈ ([(['A','B'], [['B','A']]), (['B','A'], [['A','B']])] : Graph).map Prod.fst,
      (degGet [(['A','B'], 1), (['B','A'], 1)] n : Int) -
        (degGet [(['B','A'], 1), (['A','B'], 1)] n : Int) ≠ 1) ∧
    find_starting_node [(['A','B'], [['B','A']]), (['B','A'], [['A','B']])]
        [(['B','A'], 1), (['A','B'], 1)] [(['A','B'], 1), (['B','A'], 1)] =
      last_balanced
        (([(['A','B'], [['B','A']]), (['B','A'], [['A','B']])] : Graph).map Prod.fst)
        [(['B','A'], 1), (['A','B'], 1)] [(['A','B'], 1), (['B','A'], 1)] :=
  ⟨by decide,
   claim_C3_amended [(['A','B'], [['B','A']]), (['B','A'], [['A','B']])]
     [(['B','A'], 1), (['A','B'], 1)] [(['A','B'], 1), (['B','A'], 1)] (by decide)⟩

theorem dget_dget_snd (g : Graph) (n m : Node) :
    (dget (dget g n).1 m).2 = (dget g m).2 := by
  induction g with
  | nil =>
      by_cases h : n = m <;> simp [dget, h]
  | cons e rest ih =>
      obtain ⟨a, v⟩ := e
      by_cases ha : a = n
      · simp [dget, ha]
      · by_cases hm : a = m
        · have hmn : ¬ m = n := fun he => ha (hm.trans he)
          simp [dget, ha, hm, hmn]
        · simp [dget, ha, hm, ih]

theorem dpop_dget_snd_ne (g : Graph) (n m : Node) (hm : m ≠ n) :
    (dget (dpop g n) m).2 = (dget g m).2 := by
  induction g with
  | nil => simp [dpop]
  | cons e rest ih =>
      obtain ⟨a, v⟩ := e
      by_cases ha : a = n
      · have ham : ¬ a = m := fun he => hm (he ▸ ha ▸ rfl)
        have hnm : ¬ n = m := fun he => hm he.symm
        simp [dpop, dget, ha, ham, hnm]
      · by_cases ham : a = m
        · simp [dpop, dget, ha, ham, hm]
        · simp [dpop, dget, ha, ham, ih]

/-- Every node already finalized onto the path keeps an empty adjacency
list for the rest of the loop run. -/
theorem reconLoop_visited_empty :
    ∀ (fuel : Nat) (g : Graph) (stack path : List Node) (g' : Graph)
      (path' : List Node),
      (∀ n ∈ path, (dget g n).2 = []) →
      reconLoop fuel g stack path = some (g', path') →
      ∀ n ∈ path', (dget g' n).2 = [] := by
  intro fuel
  induction fuel with
  | zero => intro g stack path g' path' _ h; simp [reconLoop] at h
  | succ fuel ih =>
      intro g stack path g' path' hpath h
      match stack with
      | [] =>
          simp only [reconLoop, Option.some.injEq, Prod.mk.injEq] at h
          obtain ⟨hg, hp⟩ := h
          subst hg; subst hp
          exact hpath
      | current :: rest =>
          simp only [reconLoop] at h
          cases hv : (dget g current).2.getLast? with
          | some nxt =>
              rw [hv] at h
              refine ih _ _ _ _ _ ?_ h
              intro n hn
              have hne : (dget g n).2 = [] := hpath n hn
              have hcur : n ≠ current := by
                intro he
                rw [he] at hne
                rw [hne] at hv
                simp at hv
              rw [dpop_dget_snd_ne _ _ _ hcur, dget_dget_snd]
              exact hne
          | none =>
              rw [hv] at h
              refine ih _ _ _ _ _ ?_ h
              intro n hn
              rcases List.mem_cons.mp hn with he | hn
              · subst he
                rw [dget_dget_snd]
                exact List.getLast?_eq_none_iff.mp hv
              · rw [dget_dget_snd]
                exact hpath n hn

/-- Claim C7, amended: after the traversal loop of `reconstruct_dna`
finishes, every node that was finalized onto the resulting path has an
empty outgoing-edge collection; nodes the walk never reached (as in the
disconnected counterexample) may retain their edges. -/
theorem claim_C7_amended (graph : Graph) (start_node : Node) (g' : Graph)
    (path' : List Node)
    (h : reconLoop (2 * totalEdges graph + 2) graph [start_node] [] =
      some (g', path')) :
    ∀ n ∈ path', (dget g' n).2 = [] :=
  reconLoop_visited_empty _ _ _ _ _ _ (by simp) h

/-- Witness for the amended claim C7 at the disconnected graph built from
["AB","CD"]: the walk visits A and B, whose lists end empty, while C keeps
its edge. -/
theorem claim_C7_amended_witness :
    (dget [(['A'], []), (['C'], [['D']]), (['B'], [])] ['A']).2 = [] ∧
    (dget [(['A'], []), (['C'], [['D']]), (['B'], [])] ['B']).2 = [] :=
  ⟨claim_C7_amended [(['A'], [['B']]), (['C'], [['D']])] ['A']
     [(['A'], []), (['C'], [['D']]), (['B'], [])] [['A'], ['B']] rfl
     ['A'] (by decide),
   claim_C7_amended [(['A'], [['B']]), (['C'], [['D']])] ['A']
     [(['A'], []), (['C'], [['D']]), (['B'], [])] [['A'], ['B']] rfl
     ['B'] (by decide)⟩

/-- Claim C7 is false as stated: the graph built from ["AB","CD"] is
disconnected; the selected start is A, the walk consumes only the edge
A→B, and the final adjacency dict still holds the edge C→D, so not every
outgoing-edge collection is empty after reconstruction. -/
theorem claim_C7_counterexample :
    build_de_bruijn_graph ["AB".toList, "CD".toList] =
      ([(['A'], [['B']]), (['C'], [['D']])],
       [(['B'], 1), (['D'], 1)], [(['A'], 1), (['C'], 1)]) ∧
    find_starting_node [(['A'], [['B']]), (['C'], [['D']])]
      [(['B'], 1), (['D'], 1)] [(['A'], 1), (['C'], 1)] = some ['A'] ∧
    (reconstruct_dna [(['A'], [['B']]), (['C'], [['D']])] ['A']).map
      (fun r => allEmptyB r.1) = some false := by
  decide

end Assembler
